import Mathlib

/-!
Verification development for the blanke-ark drawing-protocol example of the
libremarkable repository.  The Rust sources embedded here are
`src/examples/blanke_ark_lib/message.rs` (wire data model) and
`src/examples/blanke_ark.rs` (stroke capture, stroke reconstruction and
rendering glue).

Modelling conventions:
* Rust `f32` is modelled by the type `F32` below: the special values NaN and
  the two infinities are explicit constructors and every finite value is a
  rational.  This is a superset abstraction of the machine floats; equality is
  structural.
* Machine integers are `Int`/`Nat` with explicit saturation where the Rust
  code saturates (`as i32` casts).
* `HashSet` is modelled as `Finset`.
* The framebuffer collaborator is modelled by the list of drawing events the
  code hands to it: a `line` event per `framebuffer.draw_line` call and a
  `refresh` event per `framebuffer.partial_refresh` call.  The final
  pixel-space scaling (`* chunk_size`, the `as i32`/`as u32` casts inside the
  framebuffer calls) is the out-of-scope rendering backend; events carry the
  global coordinates, the `f32` width value and the color that the source
  passes into its drawing helpers.
-/

namespace BlankeArk

/-- Abstraction of Rust `f32`: NaN, the infinities, and finite values as
rationals.  Structural equality. -/
inductive F32 where
  | nan : F32
  | posInf : F32
  | negInf : F32
  | finite (q : ℚ) : F32
deriving DecidableEq, Repr

/-- Truncation of a rational toward zero, the rounding used by Rust float to
integer `as` casts. -/
def ratTrunc (q : ℚ) : ℤ := if 0 ≤ q then ⌊q⌋ else ⌈q⌉

/-- Rust `f32::floor`: floors finite values, fixes NaN and the infinities. -/
def F32.floor : F32 → F32
  | .nan => .nan
  | .posInf => .posInf
  | .negInf => .negInf
  | .finite q => .finite (⌊q⌋ : ℤ)

/-- Rust `as i32` on an `f32`: saturating cast.  NaN goes to 0, values beyond
the `i32` range clamp to `i32::MAX` / `i32::MIN`, finite values truncate
toward zero. -/
def F32.toI32 : F32 → ℤ
  | .nan => 0
  | .posInf => 2 ^ 31 - 1
  | .negInf => -(2 ^ 31)
  | .finite q => max (-(2 ^ 31)) (min (2 ^ 31 - 1) (ratTrunc q))

/-- `ChunkCoordinates` from message.rs: integer chunk index per axis
(`i32` fields). -/
structure ChunkCoordinates where
  x : ℤ
  y : ℤ
deriving DecidableEq, Repr

/-- `GlobalCoordinates` from message.rs: `f32` canvas coordinates. -/
structure GlobalCoordinates where
  x : F32
  y : F32
deriving DecidableEq, Repr

/-- `GlobalCoordinates::into_chunk_coordinates` from message.rs:
`ChunkCoordinates { x: self.x.floor() as i32, y: self.y.floor() as i32 }`.
Note that the source does not divide by any chunk size. -/
def GlobalCoordinates.into_chunk_coordinates (c : GlobalCoordinates) : ChunkCoordinates :=
  { x := c.x.floor.toI32, y := c.y.floor.toI32 }

/-- `Color` from message.rs; the `u8` components are modelled as naturals. -/
inductive Color where
  | RGB (r g b : ℕ) : Color
deriving DecidableEq, Repr

/-- `Width` from message.rs: a newtype around `f32`. -/
structure Width where
  val : F32
deriving DecidableEq, Repr

/-- `Width::as_f32`. -/
def Width.as_f32 (w : Width) : F32 := w.val

/-- `PathId` from message.rs: a newtype around a 128-bit `Ulid`, modelled as a
natural number. -/
structure PathId where
  ulid : ℕ
deriving DecidableEq, Repr

/-- `Path` from message.rs (field declaration order: points, width, color). -/
structure Path where
  points : List GlobalCoordinates
  width : Width
  color : Color
deriving DecidableEq, Repr

/-- `PathStepDraw` from message.rs (field order: id, point, width, color). -/
structure PathStepDraw where
  id : PathId
  point : GlobalCoordinates
  width : Width
  color : Color
deriving DecidableEq, Repr

/-- `PathStepEnd` from message.rs. -/
structure PathStepEnd where
  id : PathId
deriving DecidableEq, Repr

/-- `PathStepAction` from message.rs (variant order: Draw, End). -/
inductive PathStepAction where
  | Draw (d : PathStepDraw) : PathStepAction
  | End (e : PathStepEnd) : PathStepAction
deriving DecidableEq, Repr

/-- `Line` from message.rs (field order: from, to, width, color; `from` and
`to` are Lean keywords, hence the primes). -/
structure Line where
  from' : GlobalCoordinates
  to' : GlobalCoordinates
  width : Width
  color : Color
deriving DecidableEq, Repr

/-- `Dot` from message.rs (field order: coordinates, diam, color). -/
structure Dot where
  coordinates : GlobalCoordinates
  diam : Width
  color : Color
deriving DecidableEq, Repr

/-- `Subscription` from message.rs: a `HashSet<ChunkCoordinates>`, modelled as
a `Finset`. -/
structure Subscription where
  chunk_coordinates : Finset ChunkCoordinates
deriving DecidableEq

/-- `Subscription::missing_from_other`:
`self.chunk_coordinates.difference(&other.chunk_coordinates)` — the chunks in
`self` that are absent from `other`. -/
def Subscription.missing_from_other (s other : Subscription) : Finset ChunkCoordinates :=
  s.chunk_coordinates \ other.chunk_coordinates

/-- `Subscription::missing_from_self`:
`other.chunk_coordinates.difference(&self.chunk_coordinates)`. -/
def Subscription.missing_from_self (s other : Subscription) : Finset ChunkCoordinates :=
  other.chunk_coordinates \ s.chunk_coordinates

/-- `DrawMessage` from message.rs (variant order: Composite, Path,
PathStepAction, Line, Dot).  The `CompositeDrawMessage(Vec<DrawMessage>)`
newtype is inlined as the list argument of `Composite`. -/
inductive DrawMessage where
  | Composite (msgs : List DrawMessage) : DrawMessage
  | Path (p : Path) : DrawMessage
  | PathStepAction (a : PathStepAction) : DrawMessage
  | Line (l : Line) : DrawMessage
  | Dot (d : Dot) : DrawMessage

/-- `Message` from message.rs (variant order: Draw, Subscribe). -/
inductive Message where
  | Draw (dm : DrawMessage) : Message
  | Subscribe (s : Subscription) : Message

/-! ### Stroke reconstruction (blanke_ark.rs, read loop of `main_blanke_ark`)

The renderer collaborator is observed through `Event`s: one `line` per
`framebuffer.draw_line` call and one `refresh` per
`framebuffer.partial_refresh` call, in the order the source issues them. -/

/-- A line segment as handed to the framebuffer: endpoints in global
coordinates, the `f32` width value passed down, and the color argument of the
`framebuffer.draw_line` call. -/
structure Segment where
  src : GlobalCoordinates
  dst : GlobalCoordinates
  width : F32
  color : Color
deriving DecidableEq, Repr

/-- One observable renderer interaction. -/
inductive Event where
  | line (s : Segment) : Event
  | refresh : Event
deriving DecidableEq, Repr

/-- The `draw_line` helper of blanke_ark.rs: one `framebuffer.draw_line` with
the constant color `BLACK`, followed by one `framebuffer.partial_refresh`. -/
def drawLineEvents (a b : GlobalCoordinates) (w : F32) : List Event :=
  [Event.line { src := a, dst := b, width := w, color := Color.RGB 0 0 0 },
   Event.refresh]

/-- The `draw_path` helper of blanke_ark.rs: `points.windows(2)` mapped to
`framebuffer.draw_line` calls with the path's width and the constant color
`BLACK`; no refresh of its own. -/
def pathEvents (p : Path) : List Event :=
  (p.points.zip p.points.tail).map
    (fun q => Event.line { src := q.1, dst := q.2, width := p.width.as_f32, color := Color.RGB 0 0 0 })

/-- The inner match of the `Composite` arm in the read loop: a contained
`Path` is drawn via `draw_path` (no refresh), a contained `Line` via the
`draw_line` helper (which refreshes); every other contained variant — nested
`Composite` included — is only logged and skipped. -/
def compositeItemEvents : DrawMessage → List Event
  | .Path p => pathEvents p
  | .Line l => drawLineEvents l.from' l.to' (l.width.as_f32)
  | _ => []

/-- Sequential processing of the contained messages of a `Composite`. -/
def compositeEvents : List DrawMessage → List Event
  | [] => []
  | m :: ms => compositeItemEvents m ++ compositeEvents ms

/-- The reconstruction state of the read loop: the
`maybe_last_step_coords` / `maybe_last_step_id` pair of `main_blanke_ark`. -/
structure RecoState where
  maybe_last_step_coords : Option GlobalCoordinates
  maybe_last_step_id : Option PathId
deriving DecidableEq, Repr

/-- The point the state records for a given id, if any. -/
def stateLookup (s : RecoState) (i : PathId) : Option GlobalCoordinates :=
  match s.maybe_last_step_id, s.maybe_last_step_coords with
  | some j, some p => if j = i then some p else none
  | _, _ => none

/-- One iteration of the read-loop dispatch on a decoded `DrawMessage`
(blanke_ark.rs, the match inside `Message::Draw`): returns the updated
reconstruction state and the renderer events issued, in order.
* `Path`: `draw_path` then one `refresh`.
* `Composite`: the contained messages in order (see `compositeItemEvents`),
  then one `refresh`.
* `PathStepAction::Draw`: if both state fields are set and the recorded id
  equals the step's id, the `draw_line` helper runs from the recorded point to
  the step's point with the step's width; in every case both state fields are
  overwritten with the step's id and point.
* `PathStepAction::End` (the non-Draw arm): only logged — no event, no state
  change.
* `Line`: the `draw_line` helper.
* `Dot` (the catch-all arm): only logged. -/
def processDrawMessage (s : RecoState) : DrawMessage → RecoState × List Event
  | .Path p => (s, pathEvents p ++ [Event.refresh])
  | .Composite msgs => (s, compositeEvents msgs ++ [Event.refresh])
  | .PathStepAction (.Draw d) =>
    ({ maybe_last_step_coords := some d.point, maybe_last_step_id := some d.id },
      match s.maybe_last_step_coords, s.maybe_last_step_id with
      | some p0, some j => if j = d.id then drawLineEvents p0 d.point (d.width.as_f32) else []
      | _, _ => [])
  | .PathStepAction (.End _) => (s, [])
  | .Line l => (s, drawLineEvents l.from' l.to' (l.width.as_f32))
  | .Dot _ => (s, [])

/-- The line segments among a list of renderer events. -/
def lineSegs (evs : List Event) : List Segment :=
  evs.filterMap (fun e => match e with | .line sg => some sg | .refresh => none)

/-- The number of refresh signals among a list of renderer events. -/
def refreshCount (evs : List Event) : ℕ :=
  evs.countP (fun e => match e with | .refresh => true | _ => false)

/-- The segments a composite item contributes (specification-side view used
to state the composite claims). -/
def itemSegs : DrawMessage → List Segment
  | .Path p =>
    (p.points.zip p.points.tail).map
      (fun q => { src := q.1, dst := q.2, width := p.width.as_f32, color := Color.RGB 0 0 0 })
  | .Line l => [{ src := l.from', dst := l.to', width := l.width.as_f32, color := Color.RGB 0 0 0 }]
  | _ => []

/-- Whether a draw message is a direct `Line` variant. -/
def isLineMsg : DrawMessage → Bool
  | .Line _ => true
  | _ => false

/-! ### Stroke capture (blanke_ark.rs, Wacom event loop of `main_blanke_ark`)

The loop keeps the `points: Vec<GlobalCoordinates>` buffer.  A
`WacomEvent::Draw` sample pushes the chunk-normalised position
(`position / chunk_size`, computed by the out-of-scope input glue) onto the
buffer; any other Wacom event ends the gesture: if the buffer is non-empty a
single `Message::Draw(DrawMessage::Path {..})` with width 2 and color black is
sent, and the buffer is reset to empty in either case.  The local framebuffer
echo (`last_framebuffer_point`, the immediate `draw_line` on screen) is the
out-of-scope rendering collaborator and is not part of this state. -/

/-- One Wacom input event as seen by the capture logic. -/
inductive CaptureEvent where
  | draw (p : GlobalCoordinates) : CaptureEvent
  | other : CaptureEvent

/-- One iteration of the Wacom event-loop closure: new buffer and the
messages sent. -/
def captureStep (buffer : List GlobalCoordinates) : CaptureEvent → List GlobalCoordinates × List Message
  | .draw p => (buffer ++ [p], [])
  | .other =>
    if buffer.length > 0 then
      ([], [Message.Draw (.Path { points := buffer
                                , width := { val := F32.finite 2 }
                                , color := Color.RGB 0 0 0 })])
    else ([], [])

/-- Folding the capture loop over a sequence of events, collecting sent
messages in order. -/
def runCapture (buffer : List GlobalCoordinates) : List CaptureEvent → List GlobalCoordinates × List Message
  | [] => (buffer, [])
  | e :: es =>
    let st := captureStep buffer e
    let rest := runCapture st.1 es
    (rest.1, st.2 ++ rest.2)

/-! ### Wire codec

Modelled from the spec: the binary encoding itself lives in the external
`postcard`/`serde` crates, not in this repository's sources, so the codec is
modelled from the wire-format section of the spec — each tagged union is a
small integer discriminant followed by the variant's fields in declaration
order, sequences and sets are a length prefix followed by the elements, and
the encoder enumerates a set in a deterministic (sorted) order.  The wire
alphabet is abstracted to one natural number per atom (one varint group /
fixed-width scalar); an `F32` atom packs its constructor tag and, for finite
values, the numerator/denominator pair of the rational. -/

/-- Zigzag encoding of a signed integer into a natural (the varint signed
representation). -/
def zigzagN (z : ℤ) : ℕ := if 0 ≤ z then (2 * z).toNat else (-2 * z - 1).toNat

/-- Inverse of `zigzagN`. -/
def unzigzag (n : ℕ) : ℤ := if n % 2 = 0 then ((n / 2 : ℕ) : ℤ) else -((n / 2 : ℕ) : ℤ) - 1

/-- Injective packing of an `F32` into one wire atom. -/
def f32ToNat : F32 → ℕ
  | .nan => 0
  | .posInf => 1
  | .negInf => 2
  | .finite q => 3 + Nat.pair (zigzagN q.num) q.den

/-- Inverse of `f32ToNat` (total: unused code points round to arbitrary
finite values). -/
def natToF32 (n : ℕ) : F32 :=
  if n = 0 then .nan
  else if n = 1 then .posInf
  else if n = 2 then .negInf
  else .finite (mkRat (unzigzag (Nat.unpair (n - 3)).1) (Nat.unpair (n - 3)).2)

/-- Read one atom from the wire. -/
def readTok : List ℕ → Option (ℕ × List ℕ)
  | [] => none
  | t :: r => some (t, r)

def encodeF32 (v : F32) : List ℕ := [f32ToNat v]

def decodeF32 (l : List ℕ) : Option (F32 × List ℕ) :=
  (readTok l).map (fun tr => (natToF32 tr.1, tr.2))

def encodeGlobal (g : GlobalCoordinates) : List ℕ := [f32ToNat g.x, f32ToNat g.y]

def decodeGlobal (l : List ℕ) : Option (GlobalCoordinates × List ℕ) :=
  (decodeF32 l).bind fun xr =>
    (decodeF32 xr.2).map fun yr => ({ x := xr.1, y := yr.1 }, yr.2)

def encodeGlobals : List GlobalCoordinates → List ℕ
  | [] => []
  | g :: gs => encodeGlobal g ++ encodeGlobals gs

def decodeGlobals : ℕ → List ℕ → Option (List GlobalCoordinates × List ℕ)
  | 0, l => some ([], l)
  | n + 1, l =>
    (decodeGlobal l).bind fun gr =>
      (decodeGlobals n gr.2).map fun gsr => (gr.1 :: gsr.1, gsr.2)

def encodeWidth (w : Width) : List ℕ := [f32ToNat w.val]

def decodeWidth (l : List ℕ) : Option (Width × List ℕ) :=
  (readTok l).map (fun tr => ({ val := natToF32 tr.1 }, tr.2))

/-- `Color` encoding: discriminant then the three components.  An unknown
discriminant is a hard decode error. -/
def encodeColor : Color → List ℕ
  | .RGB r g b => [0, r, g, b]

def decodeColor : List ℕ → Option (Color × List ℕ)
  | 0 :: r :: g :: b :: rest => some (Color.RGB r g b, rest)
  | _ => none

def encodePathId (i : PathId) : List ℕ := [i.ulid]

def decodePathId (l : List ℕ) : Option (PathId × List ℕ) :=
  (readTok l).map (fun tr => ({ ulid := tr.1 }, tr.2))

def encodePath (p : Path) : List ℕ :=
  p.points.length :: (encodeGlobals p.points ++ encodeWidth p.width ++ encodeColor p.color)

def decodePath (l : List ℕ) : Option (Path × List ℕ) :=
  (readTok l).bind fun nr =>
    (decodeGlobals nr.1 nr.2).bind fun ptsr =>
      (decodeWidth ptsr.2).bind fun wr =>
        (decodeColor wr.2).map fun cr =>
          ({ points := ptsr.1, width := wr.1, color := cr.1 }, cr.2)

def encodeStepDraw (d : PathStepDraw) : List ℕ :=
  encodePathId d.id ++ encodeGlobal d.point ++ encodeWidth d.width ++ encodeColor d.color

def decodeStepDraw (l : List ℕ) : Option (PathStepDraw × List ℕ) :=
  (decodePathId l).bind fun ir =>
    (decodeGlobal ir.2).bind fun pr =>
      (decodeWidth pr.2).bind fun wr =>
        (decodeColor wr.2).map fun cr =>
          ({ id := ir.1, point := pr.1, width := wr.1, color := cr.1 }, cr.2)

def encodeStepAction : PathStepAction → List ℕ
  | .Draw d => 0 :: encodeStepDraw d
  | .End e => 1 :: encodePathId e.id

def decodeStepAction : List ℕ → Option (PathStepAction × List ℕ)
  | 0 :: r => (decodeStepDraw r).map fun dr => (PathStepAction.Draw dr.1, dr.2)
  | 1 :: r => (decodePathId r).map fun ir => (PathStepAction.End { id := ir.1 }, ir.2)
  | _ => none

def encodeLine (l : Line) : List ℕ :=
  encodeGlobal l.from' ++ encodeGlobal l.to' ++ encodeWidth l.width ++ encodeColor l.color

def decodeLine (l : List ℕ) : Option (Line × List ℕ) :=
  (decodeGlobal l).bind fun fr =>
    (decodeGlobal fr.2).bind fun tr =>
      (decodeWidth tr.2).bind fun wr =>
        (decodeColor wr.2).map fun cr =>
          ({ from' := fr.1, to' := tr.1, width := wr.1, color := cr.1 }, cr.2)

def encodeDot (d : Dot) : List ℕ :=
  encodeGlobal d.coordinates ++ encodeWidth d.diam ++ encodeColor d.color

def decodeDot (l : List ℕ) : Option (Dot × List ℕ) :=
  (decodeGlobal l).bind fun gr =>
    (decodeWidth gr.2).bind fun wr =>
      (decodeColor wr.2).map fun cr =>
        ({ coordinates := gr.1, diam := wr.1, color := cr.1 }, cr.2)

def encodeChunk (c : ChunkCoordinates) : List ℕ := [zigzagN c.x, zigzagN c.y]

def decodeChunk : List ℕ → Option (ChunkCoordinates × List ℕ)
  | a :: b :: rest => some ({ x := unzigzag a, y := unzigzag b }, rest)
  | _ => none

def encodeChunks : List ChunkCoordinates → List ℕ
  | [] => []
  | c :: cs => encodeChunk c ++ encodeChunks cs

def decodeChunks : ℕ → List ℕ → Option (List ChunkCoordinates × List ℕ)
  | 0, l => some ([], l)
  | n + 1, l =>
    (decodeChunk l).bind fun cr =>
      (decodeChunks n cr.2).map fun csr => (cr.1 :: csr.1, csr.2)

/-- Lexicographic key (x then y) for ordering chunk coordinates, matching the
derived `PartialOrd`/`Ord` of the source. -/
def chunkKey (c : ChunkCoordinates) : Lex (ℤ × ℤ) := toLex (c.x, c.y)

theorem chunkKey_injective : Function.Injective chunkKey := by
  intro a b h
  have h2 : (a.x, a.y) = (b.x, b.y) := toLex.injective h
  cases a; cases b
  simp only [Prod.mk.injEq] at h2
  simp [h2.1, h2.2]

instance : LinearOrder ChunkCoordinates := LinearOrder.lift' chunkKey chunkKey_injective

/-- Deterministic enumeration of a subscription's chunk set, sorted
ascending, as the spec requires of the encoder. -/
def sortedChunks (s : Subscription) : List ChunkCoordinates :=
  s.chunk_coordinates.sort (· ≤ ·)

def encodeSubscription (s : Subscription) : List ℕ :=
  (sortedChunks s).length :: encodeChunks (sortedChunks s)

def decodeSubscription (l : List ℕ) : Option (Subscription × List ℕ) :=
  (readTok l).bind fun nr =>
    (decodeChunks nr.1 nr.2).map fun csr => ({ chunk_coordinates := csr.1.toFinset }, csr.2)

/-- The encoding of a `Subscription` as the code actually performs it:
`serde` walks the `HashSet` in its iteration order, which is a property of the
particular `HashSet` instance (its `RandomState` seed and insertion history),
not of the set value.  The iteration order is the explicit `order`
parameter here. -/
def encodeSubscriptionInOrder (order : List ChunkCoordinates) : List ℕ :=
  order.length :: encodeChunks order

mutual
def encodeDM : DrawMessage → List ℕ
  | .Composite msgs => 0 :: msgs.length :: encodeDMs msgs
  | .Path p => 1 :: encodePath p
  | .PathStepAction a => 2 :: encodeStepAction a
  | .Line l => 3 :: encodeLine l
  | .Dot d => 4 :: encodeDot d

def encodeDMs : List DrawMessage → List ℕ
  | [] => []
  | m :: ms => encodeDM m ++ encodeDMs ms
end

mutual
/-- Node count of a draw message, used as decoding fuel. -/
def dmSize : DrawMessage → ℕ
  | .Composite msgs => 1 + dmsSize msgs
  | _ => 1

def dmsSize : List DrawMessage → ℕ
  | [] => 0
  | m :: ms => dmSize m + dmsSize ms
end

/-- Decode a length-prefixed run of draw messages with an element decoder. -/
def decodeDMs (dec : List ℕ → Option (DrawMessage × List ℕ)) :
    ℕ → List ℕ → Option (List DrawMessage × List ℕ)
  | 0, l => some ([], l)
  | n + 1, l =>
    (dec l).bind fun mr =>
      (decodeDMs dec n mr.2).map fun msr => (mr.1 :: msr.1, msr.2)

/-- Fuelled decoder for draw messages; the fuel bounds the `Composite`
nesting.  An unknown discriminant is a hard decode error. -/
def decodeDM : ℕ → List ℕ → Option (DrawMessage × List ℕ)
  | 0, _ => none
  | fuel + 1, l =>
    match l with
    | 0 :: n :: r1 =>
      (decodeDMs (decodeDM fuel) n r1).map fun msr => (DrawMessage.Composite msr.1, msr.2)
    | 1 :: r => (decodePath r).map fun pr => (DrawMessage.Path pr.1, pr.2)
    | 2 :: r => (decodeStepAction r).map fun ar => (DrawMessage.PathStepAction ar.1, ar.2)
    | 3 :: r => (decodeLine r).map fun lr => (DrawMessage.Line lr.1, lr.2)
    | 4 :: r => (decodeDot r).map fun dr => (DrawMessage.Dot dr.1, dr.2)
    | _ => none

def encodeMessage : Message → List ℕ
  | .Draw dm => 0 :: encodeDM dm
  | .Subscribe s => 1 :: encodeSubscription s

/-- Total decoder for a whole frame: discriminant dispatch, with the input
length (plus one) as ample fuel, requiring the frame to be fully consumed. -/
def decodeMessage (l : List ℕ) : Option Message :=
  match l with
  | 0 :: r =>
    (decodeDM (r.length + 1) r).bind fun mr =>
      if mr.2 = [] then some (Message.Draw mr.1) else none
  | 1 :: r =>
    (decodeSubscription r).bind fun sr =>
      if sr.2 = [] then some (Message.Subscribe sr.1) else none
  | _ => none

/-! ### Shared concrete values for scenarios -/

/-- The global point (0,0). -/
def g00 : GlobalCoordinates := ⟨.finite 0, .finite 0⟩

/-- The global point (1,1). -/
def g11 : GlobalCoordinates := ⟨.finite 1, .finite 1⟩

/-- The global point (2,2). -/
def g22 : GlobalCoordinates := ⟨.finite 2, .finite 2⟩

/-- The global point (3,3). -/
def g33 : GlobalCoordinates := ⟨.finite 3, .finite 3⟩

/-- A concrete path id. -/
def idA : PathId := ⟨1⟩

/-- A concrete width of 2. -/
def w2 : Width := ⟨.finite 2⟩

/-- The color black. -/
def black : Color := .RGB 0 0 0

/-! ### Helper lemmas -/

theorem ratTrunc_intCast (z : ℤ) : ratTrunc (z : ℚ) = z := by
  unfold ratTrunc
  split <;> simp

theorem toI32_floor_finite (x : ℚ) (h1 : -(2 ^ 31 : ℚ) ≤ x) (h2 : x < 2 ^ 31) :
    (F32.finite x).floor.toI32 = ⌊x⌋ := by
  have hl : -(2 ^ 31 : ℤ) ≤ ⌊x⌋ := by
    rw [Int.le_floor]
    exact_mod_cast h1
  have hu : ⌊x⌋ < (2 ^ 31 : ℤ) := by
    rw [Int.floor_lt]
    exact_mod_cast h2
  simp only [F32.floor, F32.toI32, ratTrunc_intCast]
  omega

theorem toI32_floor_big (q : ℚ) (h : (2 ^ 31 - 1 : ℚ) < q) :
    (F32.finite q).floor.toI32 = 2 ^ 31 - 1 := by
  have hl : (2 ^ 31 - 1 : ℤ) ≤ ⌊q⌋ := by
    rw [Int.le_floor]
    push_cast
    linarith
  simp only [F32.floor, F32.toI32, ratTrunc_intCast]
  omega

theorem toI32_floor_small (r : ℚ) (h : r < -(2 ^ 31 : ℚ)) :
    (F32.finite r).floor.toI32 = -(2 ^ 31) := by
  have hu : ⌊r⌋ < -(2 ^ 31 : ℤ) := by
    rw [Int.floor_lt]
    push_cast
    linarith
  simp only [F32.floor, F32.toI32, ratTrunc_intCast]
  omega

/-! ### Claim theorems -/

/-- Claim C1, counterexample: the conversion of the source does not divide by
a chunk size, so the claimed identity `to_chunk((x,y)) = (floor(x/S),
floor(y/S))` for every `S > 0` fails, e.g. at `S = 2`, `(x,y) = (3,0)`: the
code yields chunk `(3,0)` while the claim demands `(1,0)`. -/
theorem chunk_conversion_claim_false :
    ¬ (∀ S : ℚ, 0 < S → ∀ x y : ℚ,
        GlobalCoordinates.into_chunk_coordinates ⟨.finite x, .finite y⟩
          = ⟨⌊x / S⌋, ⌊y / S⌋⟩) := by
  intro h
  have h2 := h 2 (by norm_num) 3 0
  have hx : (⟨.finite 3, .finite 0⟩ : GlobalCoordinates).into_chunk_coordinates
      = ⟨3, 0⟩ := by
    unfold GlobalCoordinates.into_chunk_coordinates
    rw [show ((⟨.finite 3, .finite 0⟩ : GlobalCoordinates).x) = F32.finite 3 from rfl,
      show ((⟨.finite 3, .finite 0⟩ : GlobalCoordinates).y) = F32.finite 0 from rfl,
      toI32_floor_finite 3 (by norm_num) (by norm_num),
      toI32_floor_finite 0 (by norm_num) (by norm_num)]
    norm_num
  rw [hx] at h2
  have h3 : ⌊(3 : ℚ) / 2⌋ = 1 := by
    rw [Int.floor_eq_iff]
    norm_num
  rw [ChunkCoordinates.mk.injEq] at h2
  rw [h3] at h2
  exact absurd h2.1 (by norm_num)

/-- Claim C1 (amended): `into_chunk_coordinates` floors each axis directly —
the global coordinates are already measured in chunk units and no division by
a chunk size takes place.  For every finite in-range coordinate the result is
`(floor x, floor y)`; in particular `(0,0)` maps to chunk `(0,0)` and negative
coordinates floor toward negative infinity, so `(-0.1,-0.1)` maps to
`(-1,-1)`. -/
theorem chunk_conversion_floors_each_axis (x y : ℚ)
    (hx1 : -(2 ^ 31 : ℚ) ≤ x) (hx2 : x < 2 ^ 31)
    (hy1 : -(2 ^ 31 : ℚ) ≤ y) (hy2 : y < 2 ^ 31) :
    GlobalCoordinates.into_chunk_coordinates ⟨.finite x, .finite y⟩ = ⟨⌊x⌋, ⌊y⌋⟩
    ∧ GlobalCoordinates.into_chunk_coordinates ⟨.finite 0, .finite 0⟩ = ⟨0, 0⟩
    ∧ GlobalCoordinates.into_chunk_coordinates ⟨.finite (-1 / 10), .finite (-1 / 10)⟩
        = ⟨-1, -1⟩ := by
  refine ⟨?_, by decide, ?_⟩
  · unfold GlobalCoordinates.into_chunk_coordinates
    rw [show ((⟨.finite x, .finite y⟩ : GlobalCoordinates).x) = F32.finite x from rfl,
      show ((⟨.finite x, .finite y⟩ : GlobalCoordinates).y) = F32.finite y from rfl,
      toI32_floor_finite x hx1 hx2, toI32_floor_finite y hy1 hy2]
  · have hf : ⌊(-1 / 10 : ℚ)⌋ = -1 := by
      rw [Int.floor_eq_iff]
      norm_num
    unfold GlobalCoordinates.into_chunk_coordinates
    rw [show ((⟨.finite (-1 / 10), .finite (-1 / 10)⟩ : GlobalCoordinates).x)
        = F32.finite (-1 / 10) from rfl,
      show ((⟨.finite (-1 / 10), .finite (-1 / 10)⟩ : GlobalCoordinates).y)
        = F32.finite (-1 / 10) from rfl,
      toI32_floor_finite (-1 / 10) (by norm_num) (by norm_num), hf]

/-- Witness for the amended C1 theorem at `x = 3`, `y = -1`. -/
theorem chunk_conversion_floors_each_axis_witness :
    GlobalCoordinates.into_chunk_coordinates ⟨.finite 3, .finite (-1)⟩ = ⟨3, -1⟩ := by
  have h := (chunk_conversion_floors_each_axis 3 (-1)
    (by norm_num) (by norm_num) (by norm_num) (by norm_num)).1
  rw [h]
  norm_num

/-- Claim C10: `into_chunk_coordinates` is total over all `f32` inputs: each
axis is floor followed by a saturating `as i32` cast, so a NaN axis maps to 0,
positive infinity or any finite value above `i32::MAX` maps to `i32::MAX =
2^31 - 1`, and negative infinity or any finite value below `i32::MIN` maps to
`i32::MIN = -2^31`; being a total function of the embedding, it never
panics. -/
theorem into_chunk_coordinates_saturates (w : F32) (q r : ℚ)
    (hq : (2 ^ 31 - 1 : ℚ) < q) (hr : r < -(2 ^ 31 : ℚ)) :
    (GlobalCoordinates.into_chunk_coordinates ⟨.nan, w⟩).x = 0
    ∧ (GlobalCoordinates.into_chunk_coordinates ⟨.posInf, w⟩).x = 2 ^ 31 - 1
    ∧ (GlobalCoordinates.into_chunk_coordinates ⟨.negInf, w⟩).x = -(2 ^ 31)
    ∧ (GlobalCoordinates.into_chunk_coordinates ⟨.finite q, w⟩).x = 2 ^ 31 - 1
    ∧ (GlobalCoordinates.into_chunk_coordinates ⟨.finite r, w⟩).x = -(2 ^ 31)
    ∧ (GlobalCoordinates.into_chunk_coordinates ⟨w, .nan⟩).y = 0
    ∧ (GlobalCoordinates.into_chunk_coordinates ⟨w, .posInf⟩).y = 2 ^ 31 - 1
    ∧ (GlobalCoordinates.into_chunk_coordinates ⟨w, .negInf⟩).y = -(2 ^ 31)
    ∧ (GlobalCoordinates.into_chunk_coordinates ⟨w, .finite q⟩).y = 2 ^ 31 - 1
    ∧ (GlobalCoordinates.into_chunk_coordinates ⟨w, .finite r⟩).y = -(2 ^ 31) :=
  ⟨rfl, rfl, rfl, toI32_floor_big q hq, toI32_floor_small r hr,
   rfl, rfl, rfl, toI32_floor_big q hq, toI32_floor_small r hr⟩

/-- Witness for C10 at `w = NaN`, `q = 2^31`, `r = -2^31 - 1`. -/
theorem into_chunk_coordinates_saturates_witness :
    (GlobalCoordinates.into_chunk_coordinates ⟨.nan, .nan⟩).x = 0
    ∧ (GlobalCoordinates.into_chunk_coordinates ⟨.posInf, .nan⟩).x = 2 ^ 31 - 1
    ∧ (GlobalCoordinates.into_chunk_coordinates ⟨.negInf, .nan⟩).x = -(2 ^ 31)
    ∧ (GlobalCoordinates.into_chunk_coordinates ⟨.finite (2 ^ 31), .nan⟩).x = 2 ^ 31 - 1
    ∧ (GlobalCoordinates.into_chunk_coordinates ⟨.finite (-(2 ^ 31) - 1), .nan⟩).x = -(2 ^ 31)
    ∧ (GlobalCoordinates.into_chunk_coordinates ⟨.nan, .nan⟩).y = 0
    ∧ (GlobalCoordinates.into_chunk_coordinates ⟨.nan, .posInf⟩).y = 2 ^ 31 - 1
    ∧ (GlobalCoordinates.into_chunk_coordinates ⟨.nan, .negInf⟩).y = -(2 ^ 31)
    ∧ (GlobalCoordinates.into_chunk_coordinates ⟨.nan, .finite (2 ^ 31)⟩).y = 2 ^ 31 - 1
    ∧ (GlobalCoordinates.into_chunk_coordinates ⟨.nan, .finite (-(2 ^ 31) - 1)⟩).y = -(2 ^ 31) :=
  into_chunk_coordinates_saturates F32.nan (2 ^ 31) (-(2 ^ 31) - 1)
    (by norm_num) (by norm_num)

/-- Claim C7: `missing_from_other` is asymmetric set difference:
`A.missing_from(A)` is empty, `A.missing_from(B)` holds exactly the chunks in
`A` and not in `B`, and the union of the two one-sided differences is the
symmetric difference. -/
theorem missing_from_is_asymmetric_difference (A B : Subscription) :
    A.missing_from_other A = ∅
    ∧ (∀ c, c ∈ A.missing_from_other B ↔
        c ∈ A.chunk_coordinates ∧ c ∉ B.chunk_coordinates)
    ∧ A.missing_from_other B ∪ B.missing_from_other A
        = symmDiff A.chunk_coordinates B.chunk_coordinates := by
  refine ⟨?_, ?_, ?_⟩
  · simp [Subscription.missing_from_other]
  · intro c
    simp [Subscription.missing_from_other, Finset.mem_sdiff]
  · rw [symmDiff_def]
    simp [Subscription.missing_from_other, Finset.sup_eq_union]

/-- Claim C2, counterexample: a step whose prior anchor exists and whose color
is red is rendered as a segment whose color argument is the constant black of
the `draw_line` helper, not the step's color. -/
theorem step_draw_color_ignored :
    lineSegs (processDrawMessage ⟨some g00, some idA⟩
        (.PathStepAction (.Draw ⟨idA, g11, w2, .RGB 255 0 0⟩))).2
      = [{ src := g00, dst := g11, width := F32.finite 2, color := Color.RGB 0 0 0 }]
    ∧ Color.RGB 0 0 0 ≠ Color.RGB 255 0 0 := by
  decide

/-- Claim C2 (amended): for an inbound `PathStepAction::Draw {id, point,
width, color}`: if the state records a prior point `P0` for `id`, exactly one
line from `P0` to `point` is drawn, with the incoming step's width but with
the renderer's constant black color (the step's color is ignored); if the
state has no entry for `id`, no primitive is yielded; in both cases the state
entry for `id` is set (or overwritten) to `point`. -/
theorem step_draw_extends_stroke (s : RecoState) (d : PathStepDraw) :
    (∀ p0, stateLookup s d.id = some p0 →
      lineSegs (processDrawMessage s (.PathStepAction (.Draw d))).2
        = [{ src := p0, dst := d.point, width := d.width.as_f32, color := Color.RGB 0 0 0 }])
    ∧ (stateLookup s d.id = none →
        lineSegs (processDrawMessage s (.PathStepAction (.Draw d))).2 = [])
    ∧ stateLookup (processDrawMessage s (.PathStepAction (.Draw d))).1 d.id
        = some d.point := by
  obtain ⟨mc, mi⟩ := s
  refine ⟨?_, ?_, ?_⟩
  · intro p0 hp0
    match mc, mi with
    | none, none => simp [stateLookup] at hp0
    | none, some j => simp [stateLookup] at hp0
    | some p, none => simp [stateLookup] at hp0
    | some p, some j =>
      simp only [stateLookup] at hp0
      by_cases hj : j = d.id
      · rw [if_pos hj] at hp0
        cases hp0
        simp [processDrawMessage, hj, drawLineEvents, lineSegs]
      · rw [if_neg hj] at hp0
        cases hp0
  · intro hnone
    match mc, mi with
    | none, none => simp [processDrawMessage, lineSegs]
    | none, some j => simp [processDrawMessage, lineSegs]
    | some p, none => simp [processDrawMessage, lineSegs]
    | some p, some j =>
      simp only [stateLookup] at hnone
      by_cases hj : j = d.id
      · rw [if_pos hj] at hnone
        cases hnone
      · simp [processDrawMessage, hj, lineSegs]
  · simp [processDrawMessage, stateLookup]

/-- Witness for the amended C2 theorem: a matching anchor, a missing anchor,
and the state overwrite, at concrete inputs. -/
theorem step_draw_extends_stroke_witness :
    lineSegs (processDrawMessage ⟨some g00, some idA⟩
        (.PathStepAction (.Draw ⟨idA, g11, w2, .RGB 255 0 0⟩))).2
      = [{ src := g00, dst := g11, width := Width.as_f32 w2, color := Color.RGB 0 0 0 }]
    ∧ lineSegs (processDrawMessage ⟨none, none⟩
        (.PathStepAction (.Draw ⟨idA, g11, w2, .RGB 255 0 0⟩))).2 = []
    ∧ stateLookup (processDrawMessage ⟨none, none⟩
        (.PathStepAction (.Draw ⟨idA, g11, w2, .RGB 255 0 0⟩))).1 idA = some g11 :=
  ⟨(step_draw_extends_stroke ⟨some g00, some idA⟩ ⟨idA, g11, w2, .RGB 255 0 0⟩).1
      g00 (by decide),
   (step_draw_extends_stroke ⟨none, none⟩ ⟨idA, g11, w2, .RGB 255 0 0⟩).2.1 (by decide),
   (step_draw_extends_stroke ⟨none, none⟩ ⟨idA, g11, w2, .RGB 255 0 0⟩).2.2⟩

/-- Claim C3, counterexample: after processing `End(id)` the state still
records the prior point for `id` — the source's non-Draw arm only logs the
action, it does not remove the entry, contradicting the claimed removal. -/
theorem step_end_does_not_remove :
    stateLookup (processDrawMessage ⟨some g00, some idA⟩
        (.PathStepAction (.End ⟨idA⟩))).1 idA = some g00
    ∧ some g00 ≠ (none : Option GlobalCoordinates) := by
  decide

/-- Claim C3 (amended): processing `PathStepAction::End(id)` yields no
primitive and leaves the reconstruction state entirely unchanged (the entry
for `id`, if any, is retained rather than removed); applying `End(id)` twice
in a row therefore yields no primitives and the same state as applying it
once. -/
theorem step_end_is_noop (s : RecoState) (e : PathStepEnd) :
    processDrawMessage s (.PathStepAction (.End e)) = (s, [])
    ∧ processDrawMessage
        (processDrawMessage s (.PathStepAction (.End e))).1
        (.PathStepAction (.End e)) = (s, []) :=
  ⟨rfl, rfl⟩

theorem lineSegs_append (a b : List Event) : lineSegs (a ++ b) = lineSegs a ++ lineSegs b :=
  List.filterMap_append a b _

theorem refreshCount_append (a b : List Event) :
    refreshCount (a ++ b) = refreshCount a + refreshCount b :=
  List.countP_append _ a b

theorem lineSegs_map_line {α : Type} (l : List α) (f : α → Segment) :
    lineSegs (l.map (fun a => Event.line (f a))) = l.map f := by
  induction l with
  | nil => rfl
  | cons a l ih => simp [lineSegs, List.filterMap_cons] at ih ⊢; exact ih

theorem refreshCount_map_line {α : Type} (l : List α) (f : α → Segment) :
    refreshCount (l.map (fun a => Event.line (f a))) = 0 := by
  induction l with
  | nil => rfl
  | cons a l ih => simp only [List.map_cons, refreshCount, List.countP_cons] at ih ⊢; simp [ih]

theorem lineSegs_item (m : DrawMessage) : lineSegs (compositeItemEvents m) = itemSegs m := by
  cases m with
  | Path p => simpa [compositeItemEvents, pathEvents, itemSegs] using
      lineSegs_map_line (p.points.zip p.points.tail) _
  | Line l => rfl
  | Composite msgs => rfl
  | PathStepAction a => rfl
  | Dot d => rfl

theorem refreshCount_item (m : DrawMessage) :
    refreshCount (compositeItemEvents m) = if isLineMsg m then 1 else 0 := by
  cases m with
  | Path p => simpa [compositeItemEvents, pathEvents, isLineMsg] using
      refreshCount_map_line (p.points.zip p.points.tail) _
  | Line l => rfl
  | Composite msgs => rfl
  | PathStepAction a => rfl
  | Dot d => rfl

/-- Segments contributed by the items of a composite, in sequence order. -/
def compositeSegs : List DrawMessage → List Segment
  | [] => []
  | m :: ms => itemSegs m ++ compositeSegs ms

theorem lineSegs_compositeEvents (msgs : List DrawMessage) :
    lineSegs (compositeEvents msgs) = compositeSegs msgs := by
  induction msgs with
  | nil => rfl
  | cons m ms ih => rw [compositeEvents, lineSegs_append, lineSegs_item, ih, compositeSegs]

theorem refreshCount_compositeEvents (msgs : List DrawMessage) :
    refreshCount (compositeEvents msgs) = msgs.countP isLineMsg := by
  induction msgs with
  | nil => rfl
  | cons m ms ih =>
    rw [compositeEvents, refreshCount_append, refreshCount_item, ih, List.countP_cons]
    split <;> omega

/-- Claim C4, counterexample: the scenario
`Composite([Path [(0,0),(1,1)], Line (2,2)→(3,3)])` triggers two refreshes
(one from the contained Line's `draw_line` helper and one for the batch), not
the single refresh the claim states; and a nested Composite is skipped, not
flattened: `Composite([Composite([Line ..])])` yields no line segment at
all. -/
theorem composite_claim_false :
    refreshCount (processDrawMessage ⟨none, none⟩
        (.Composite [.Path ⟨[g00, g11], w2, black⟩, .Line ⟨g22, g33, w2, black⟩])).2 = 2
    ∧ refreshCount (processDrawMessage ⟨none, none⟩
        (.Composite [.Path ⟨[g00, g11], w2, black⟩, .Line ⟨g22, g33, w2, black⟩])).2 ≠ 1
    ∧ lineSegs (processDrawMessage ⟨none, none⟩
        (.Composite [.Composite [.Line ⟨g22, g33, w2, black⟩]])).2 = [] := by
  decide

/-- Claim C4 (amended): processing `Composite(msgs)` leaves the state
unchanged and processes the contained `Path` and `Line` messages in sequence
order, yielding the concatenation of their primitives; each contained `Line`
triggers a refresh of its own and one further refresh closes the whole batch
(`1 + number of contained Lines` refreshes in total); contained messages of
any other variant — nested `Composite`s included — are skipped with a log
message rather than applied recursively.  In particular the scenario
`Composite([Path [(0,0),(1,1)], Line (2,2)→(3,3)])` yields exactly the two
lines `(0,0)→(1,1)` and `(2,2)→(3,3)` in order, with two refreshes. -/
theorem composite_processing (s : RecoState) (msgs : List DrawMessage) :
    (processDrawMessage s (.Composite msgs)).1 = s
    ∧ lineSegs (processDrawMessage s (.Composite msgs)).2 = compositeSegs msgs
    ∧ refreshCount (processDrawMessage s (.Composite msgs)).2
        = 1 + msgs.countP isLineMsg
    ∧ lineSegs (processDrawMessage ⟨none, none⟩
        (.Composite [.Path ⟨[g00, g11], w2, black⟩, .Line ⟨g22, g33, w2, black⟩])).2
      = [{ src := g00, dst := g11, width := F32.finite 2, color := Color.RGB 0 0 0 },
         { src := g22, dst := g33, width := F32.finite 2, color := Color.RGB 0 0 0 }]
    ∧ refreshCount (processDrawMessage ⟨none, none⟩
        (.Composite [.Path ⟨[g00, g11], w2, black⟩, .Line ⟨g22, g33, w2, black⟩])).2
      = 2 := by
  refine ⟨rfl, ?_, ?_, by decide, by decide⟩
  · rw [show (processDrawMessage s (.Composite msgs)).2
        = compositeEvents msgs ++ [Event.refresh] from rfl,
      lineSegs_append, lineSegs_compositeEvents]
    simp [lineSegs]
  · rw [show (processDrawMessage s (.Composite msgs)).2
        = compositeEvents msgs ++ [Event.refresh] from rfl,
      refreshCount_append, refreshCount_compositeEvents]
    simp [refreshCount]
    omega

/-- Claim C6: processing a `Path` message leaves the reconstruction state
unchanged and yields exactly one line segment per consecutive pair of points
of the path, in point order, with the path's width (a path of `n` points
yields `n - 1` segments; a path of length 1 yields zero segments as a
well-defined no-op). -/
theorem path_yields_consecutive_segments (s : RecoState) (p : Path) :
    (processDrawMessage s (.Path p)).1 = s
    ∧ lineSegs (processDrawMessage s (.Path p)).2
        = (p.points.zip p.points.tail).map
            (fun q => { src := q.1, dst := q.2, width := p.width.as_f32,
                        color := Color.RGB 0 0 0 })
    ∧ (lineSegs (processDrawMessage s (.Path p)).2).length = p.points.length - 1
    ∧ (p.points.length = 1 → lineSegs (processDrawMessage s (.Path p)).2 = []) := by
  have hsegs : lineSegs (processDrawMessage s (.Path p)).2
      = (p.points.zip p.points.tail).map
          (fun q => { src := q.1, dst := q.2, width := p.width.as_f32,
                      color := Color.RGB 0 0 0 }) := by
    rw [show (processDrawMessage s (.Path p)).2 = pathEvents p ++ [Event.refresh] from rfl,
      lineSegs_append]
    simpa [pathEvents, lineSegs] using
      lineSegs_map_line (p.points.zip p.points.tail)
        (fun q => { src := q.1, dst := q.2, width := p.width.as_f32,
                    color := Color.RGB 0 0 0 })
  have hlen : (lineSegs (processDrawMessage s (.Path p)).2).length = p.points.length - 1 := by
    rw [hsegs, List.length_map, List.length_zip, List.length_tail]
    omega
  refine ⟨rfl, hsegs, hlen, ?_⟩
  · intro h1
    have : (lineSegs (processDrawMessage s (.Path p)).2).length = 0 := by omega
    exact List.eq_nil_of_length_eq_zero this

/-- Witness for C6 at a single-point path: zero segments. -/
theorem path_yields_consecutive_segments_witness :
    lineSegs (processDrawMessage ⟨none, none⟩ (.Path ⟨[g00], w2, black⟩)).2 = [] :=
  (path_yields_consecutive_segments ⟨none, none⟩ ⟨[g00], w2, black⟩).2.2.2 rfl

theorem runCapture_draws (buf : List GlobalCoordinates) (ps : List GlobalCoordinates) :
    runCapture buf (ps.map CaptureEvent.draw) = (buf ++ ps, []) := by
  induction ps generalizing buf with
  | nil => simp [runCapture]
  | cons p ps ih => simp [runCapture, captureStep, ih]

theorem runCapture_append (buf : List GlobalCoordinates) (es fs : List CaptureEvent) :
    runCapture buf (es ++ fs)
      = ((runCapture (runCapture buf es).1 fs).1,
         (runCapture buf es).2 ++ (runCapture (runCapture buf es).1 fs).2) := by
  induction es generalizing buf with
  | nil => simp [runCapture]
  | cons e es ih => simp [runCapture, ih]

/-- Claim C8: batch-mode capture buffers every sampled point of one gesture in
order; at gesture end (the first non-Draw Wacom event), a non-empty buffer is
flushed as exactly one `Draw(Path)` message carrying the full point sequence
with the gesture's width (2) and color (black), and the buffer is then
cleared; a gesture with zero points emits nothing. -/
theorem batch_capture_flushes_full_buffer (samples : List GlobalCoordinates) :
    (runCapture [] (samples.map CaptureEvent.draw)).1 = samples
    ∧ (runCapture [] (samples.map CaptureEvent.draw)).2 = []
    ∧ (samples ≠ [] →
        (runCapture [] (samples.map CaptureEvent.draw ++ [CaptureEvent.other])).2
          = [Message.Draw (.Path { points := samples, width := { val := F32.finite 2 },
                                   color := Color.RGB 0 0 0 })]
        ∧ (runCapture [] (samples.map CaptureEvent.draw ++ [CaptureEvent.other])).1 = [])
    ∧ (samples = [] →
        (runCapture [] (samples.map CaptureEvent.draw ++ [CaptureEvent.other])).2 = []) := by
  have hdraws := runCapture_draws [] samples
  have happ := runCapture_append [] (samples.map CaptureEvent.draw) [CaptureEvent.other]
  refine ⟨by simp [hdraws], by simp [hdraws], ?_, ?_⟩
  · intro hne
    have hpos : samples.length > 0 := List.length_pos.mpr hne
    rw [happ, hdraws]
    simp [runCapture, captureStep, hpos]
  · intro hnil
    subst hnil
    rw [happ, hdraws]
    simp [runCapture, captureStep]

/-- Witness for C8 with the two-sample gesture `[(0,0), (1,1)]` and with the
empty gesture. -/
theorem batch_capture_flushes_full_buffer_witness :
    (runCapture [] ([g00, g11].map CaptureEvent.draw ++ [CaptureEvent.other])).2
      = [Message.Draw (.Path { points := [g00, g11], width := { val := F32.finite 2 },
                               color := Color.RGB 0 0 0 })]
    ∧ (runCapture [] ([g00, g11].map CaptureEvent.draw ++ [CaptureEvent.other])).1 = []
    ∧ (runCapture [] (([] : List GlobalCoordinates).map CaptureEvent.draw
        ++ [CaptureEvent.other])).2 = [] :=
  ⟨((batch_capture_flushes_full_buffer [g00, g11]).2.2.1 (by simp)).1,
   ((batch_capture_flushes_full_buffer [g00, g11]).2.2.1 (by simp)).2,
   (batch_capture_flushes_full_buffer []).2.2.2 rfl⟩

/-- Claim C9, code evaluation: two `HashSet` iteration orders of the same
two-element chunk set — equal as sets — encode to different wire sequences
under the order-following encoding the code performs, refuting the claimed
determinism of set encoding. -/
theorem subscription_encoding_order_dependent :
    ([⟨0, 0⟩, ⟨1, 1⟩] : List ChunkCoordinates).toFinset
      = ([⟨1, 1⟩, ⟨0, 0⟩] : List ChunkCoordinates).toFinset
    ∧ encodeSubscriptionInOrder [⟨0, 0⟩, ⟨1, 1⟩]
      ≠ encodeSubscriptionInOrder [⟨1, 1⟩, ⟨0, 0⟩] := by
  constructor
  · decide
  · decide

theorem unzigzag_zigzag (z : ℤ) : unzigzag (zigzagN z) = z := by
  unfold zigzagN unzigzag
  split_ifs <;> omega

theorem natToF32_f32ToNat (v : F32) : natToF32 (f32ToNat v) = v := by
  cases v with
  | nan => rfl
  | posInf => rfl
  | negInf => rfl
  | finite q =>
    simp only [f32ToNat]
    unfold natToF32
    split_ifs with h0 h1 h2
    · exact absurd h0 (by omega)
    · exact absurd h1 (by omega)
    · exact absurd h2 (by omega)
    · rw [Nat.add_sub_cancel_left, Nat.unpair_pair, unzigzag_zigzag, Rat.mkRat_self]

theorem decodeF32_encode (v : F32) (rest : List ℕ) :
    decodeF32 (encodeF32 v ++ rest) = some (v, rest) := by
  simp [decodeF32, encodeF32, readTok, natToF32_f32ToNat]

theorem decodeGlobal_encode (g : GlobalCoordinates) (rest : List ℕ) :
    decodeGlobal (encodeGlobal g ++ rest) = some (g, rest) := by
  cases g
  simp [decodeGlobal, encodeGlobal, decodeF32, readTok, natToF32_f32ToNat]

theorem decodeGlobals_encode (gs : List GlobalCoordinates) (rest : List ℕ) :
    decodeGlobals gs.length (encodeGlobals gs ++ rest) = some (gs, rest) := by
  induction gs generalizing rest with
  | nil => rfl
  | cons g gs ih =>
    rw [List.length_cons, encodeGlobals, List.append_assoc]
    rw [decodeGlobals, decodeGlobal_encode]
    simp [ih]

theorem decodeWidth_encode (w : Width) (rest : List ℕ) :
    decodeWidth (encodeWidth w ++ rest) = some (w, rest) := by
  cases w
  simp [decodeWidth, encodeWidth, readTok, natToF32_f32ToNat]

theorem decodeColor_encode (c : Color) (rest : List ℕ) :
    decodeColor (encodeColor c ++ rest) = some (c, rest) := by
  cases c
  rfl

theorem decodePathId_encode (i : PathId) (rest : List ℕ) :
    decodePathId (encodePathId i ++ rest) = some (i, rest) := by
  cases i
  rfl

theorem decodePath_encode (p : Path) (rest : List ℕ) :
    decodePath (encodePath p ++ rest) = some (p, rest) := by
  obtain ⟨pts, w, c⟩ := p
  simp [encodePath, decodePath, readTok, List.append_assoc,
    decodeGlobals_encode, decodeWidth_encode, decodeColor_encode]

theorem decodeStepDraw_encode (d : PathStepDraw) (rest : List ℕ) :
    decodeStepDraw (encodeStepDraw d ++ rest) = some (d, rest) := by
  obtain ⟨i, pt, w, c⟩ := d
  simp [encodeStepDraw, decodeStepDraw, List.append_assoc,
    decodePathId_encode, decodeGlobal_encode, decodeWidth_encode, decodeColor_encode]

theorem decodeStepAction_encode (a : PathStepAction) (rest : List ℕ) :
    decodeStepAction (encodeStepAction a ++ rest) = some (a, rest) := by
  cases a with
  | Draw d =>
    simp [encodeStepAction, decodeStepAction, decodeStepDraw_encode]
  | End e =>
    obtain ⟨i⟩ := e
    simp [encodeStepAction, decodeStepAction, decodePathId_encode]

theorem decodeLine_encode (l : Line) (rest : List ℕ) :
    decodeLine (encodeLine l ++ rest) = some (l, rest) := by
  obtain ⟨a, b, w, c⟩ := l
  simp [encodeLine, decodeLine, List.append_assoc,
    decodeGlobal_encode, decodeWidth_encode, decodeColor_encode]

theorem decodeDot_encode (d : Dot) (rest : List ℕ) :
    decodeDot (encodeDot d ++ rest) = some (d, rest) := by
  obtain ⟨g, w, c⟩ := d
  simp [encodeDot, decodeDot, List.append_assoc,
    decodeGlobal_encode, decodeWidth_encode, decodeColor_encode]

theorem decodeChunk_encode (c : ChunkCoordinates) (rest : List ℕ) :
    decodeChunk (encodeChunk c ++ rest) = some (c, rest) := by
  obtain ⟨a, b⟩ := c
  simp [encodeChunk, decodeChunk, unzigzag_zigzag]

theorem decodeChunks_encode (cs : List ChunkCoordinates) (rest : List ℕ) :
    decodeChunks cs.length (encodeChunks cs ++ rest) = some (cs, rest) := by
  induction cs generalizing rest with
  | nil => rfl
  | cons c cs ih =>
    rw [List.length_cons, encodeChunks, List.append_assoc]
    rw [decodeChunks, decodeChunk_encode]
    simp [ih]

theorem decodeSubscription_encode (s : Subscription) (rest : List ℕ) :
    decodeSubscription (encodeSubscription s ++ rest) = some (s, rest) := by
  rw [encodeSubscription, List.cons_append, decodeSubscription]
  simp only [readTok, Option.some_bind]
  rw [decodeChunks_encode]
  simp [sortedChunks, Finset.sort_toFinset]

theorem dmSize_pos (m : DrawMessage) : 1 ≤ dmSize m := by
  cases m <;> simp [dmSize]

theorem dmSize_le_dmsSize {m : DrawMessage} {ms : List DrawMessage} (h : m ∈ ms) :
    dmSize m ≤ dmsSize ms := by
  induction ms with
  | nil => cases h
  | cons a ms ih =>
    rw [dmsSize]
    rcases List.mem_cons.mp h with h1 | h1
    · subst h1; omega
    · have := ih h1; omega

theorem decodeDMs_encode (f : ℕ) (msgs : List DrawMessage) (rest : List ℕ)
    (h : ∀ m ∈ msgs, ∀ r, decodeDM f (encodeDM m ++ r) = some (m, r)) :
    decodeDMs (decodeDM f) msgs.length (encodeDMs msgs ++ rest) = some (msgs, rest) := by
  induction msgs generalizing rest with
  | nil => rfl
  | cons m ms ih =>
    rw [List.length_cons, encodeDMs, List.append_assoc]
    rw [decodeDMs, h m (List.mem_cons_self m ms)]
    simp only [Option.some_bind]
    rw [ih rest (fun m' hm' r => h m' (List.mem_cons_of_mem m hm') r)]
    rfl

theorem decodeDM_encode (fuel : ℕ) (m : DrawMessage) (rest : List ℕ)
    (h : dmSize m ≤ fuel) : decodeDM fuel (encodeDM m ++ rest) = some (m, rest) := by
  induction fuel generalizing m rest with
  | zero => exact absurd h (by have := dmSize_pos m; omega)
  | succ f ih =>
    cases m with
    | Composite msgs =>
      have hlist : ∀ m' ∈ msgs, ∀ r, decodeDM f (encodeDM m' ++ r) = some (m', r) := by
        intro m' hm' r
        refine ih m' r ?_
        have h1 := dmSize_le_dmsSize hm'
        rw [show dmSize (.Composite msgs) = 1 + dmsSize msgs from rfl] at h
        omega
      rw [show encodeDM (.Composite msgs) = 0 :: msgs.length :: encodeDMs msgs from rfl]
      simp only [List.cons_append]
      rw [decodeDM]
      rw [decodeDMs_encode f msgs rest hlist]
      rfl
    | Path p =>
      rw [show encodeDM (.Path p) = 1 :: encodePath p from rfl]
      simp only [List.cons_append]
      rw [decodeDM, decodePath_encode]
      rfl
    | PathStepAction a =>
      rw [show encodeDM (.PathStepAction a) = 2 :: encodeStepAction a from rfl]
      simp only [List.cons_append]
      rw [decodeDM, decodeStepAction_encode]
      rfl
    | Line l =>
      rw [show encodeDM (.Line l) = 3 :: encodeLine l from rfl]
      simp only [List.cons_append]
      rw [decodeDM, decodeLine_encode]
      rfl
    | Dot d =>
      rw [show encodeDM (.Dot d) = 4 :: encodeDot d from rfl]
      simp only [List.cons_append]
      rw [decodeDM, decodeDot_encode]
      rfl

/-- Structural induction principle for the nested `DrawMessage` type. -/
def dmInd {P : DrawMessage → Prop}
    (hc : ∀ msgs, (∀ m ∈ msgs, P m) → P (.Composite msgs))
    (hp : ∀ p, P (.Path p))
    (ha : ∀ a, P (.PathStepAction a))
    (hl : ∀ l, P (.Line l))
    (hd : ∀ d, P (.Dot d)) : ∀ m, P m
  | .Composite msgs => hc msgs (fun m' hm' =>
      have : sizeOf m' < 1 + sizeOf msgs := by
        have := List.sizeOf_lt_of_mem hm'
        omega
      dmInd hc hp ha hl hd m')
  | .Path p => hp p
  | .PathStepAction a => ha a
  | .Line l => hl l
  | .Dot d => hd d
termination_by m => sizeOf m

theorem dmsSize_le_length (msgs : List DrawMessage)
    (h : ∀ m ∈ msgs, dmSize m ≤ (encodeDM m).length) :
    dmsSize msgs ≤ (encodeDMs msgs).length := by
  induction msgs with
  | nil => simp [dmsSize, encodeDMs]
  | cons m ms ih =>
    rw [dmsSize, encodeDMs, List.length_append]
    have h1 := h m (List.mem_cons_self m ms)
    have h2 := ih (fun m' hm' => h m' (List.mem_cons_of_mem m hm'))
    omega

theorem dmSize_le_length (m : DrawMessage) : dmSize m ≤ (encodeDM m).length := by
  refine @dmInd (fun m => dmSize m ≤ (encodeDM m).length) ?_ ?_ ?_ ?_ ?_ m
  · intro msgs hIH
    rw [show dmSize (.Composite msgs) = 1 + dmsSize msgs from rfl,
      show encodeDM (.Composite msgs) = 0 :: msgs.length :: encodeDMs msgs from rfl]
    have := dmsSize_le_length msgs hIH
    simp only [List.length_cons]
    omega
  · intro p
    rw [show dmSize (.Path p) = 1 from rfl,
      show encodeDM (.Path p) = 1 :: encodePath p from rfl]
    simp
  · intro a
    rw [show dmSize (.PathStepAction a) = 1 from rfl,
      show encodeDM (.PathStepAction a) = 2 :: encodeStepAction a from rfl]
    simp
  · intro l
    rw [show dmSize (.Line l) = 1 from rfl,
      show encodeDM (.Line l) = 3 :: encodeLine l from rfl]
    simp
  · intro d
    rw [show dmSize (.Dot d) = 1 from rfl,
      show encodeDM (.Dot d) = 4 :: encodeDot d from rfl]
    simp

/-- Claim C5: decode is a left inverse of encode — every constructible
`Message` value round-trips through the wire format (spec-modelled codec;
decoding is a total function of the byte sequence, and encoding is a
function, so each side is deterministic). -/
theorem message_roundtrip (m : Message) : decodeMessage (encodeMessage m) = some m := by
  cases m with
  | Draw dm =>
    rw [show encodeMessage (.Draw dm) = 0 :: encodeDM dm from rfl, decodeMessage]
    have h := decodeDM_encode ((encodeDM dm).length + 1) dm []
      (by have := dmSize_le_length dm; omega)
    rw [List.append_nil] at h
    rw [h]
    rfl
  | Subscribe s =>
    rw [show encodeMessage (.Subscribe s) = 1 :: encodeSubscription s from rfl, decodeMessage]
    have h := decodeSubscription_encode s []
    rw [List.append_nil] at h
    rw [h]
    rfl

end BlankeArk
